import Mathlib

/-!
Shallow embedding of the text-prediction decoding core from
`notebooks/223-text-prediction/223-text-prediction.ipynb`.

The embedded functions are `softmax`, `process_logits`, `get_top_k_logits`,
`generate_sequence` and `converse`.  Conventions used throughout:

* Logit scores are modelled as `WithBot ℚ`: the bottom element `⊥` stands for
  the floating-point `-inf` that the notebook uses as its filter value, and
  finite scores are rationals (an exact model of finite floats).
* The compiled OpenVINO model is an external collaborator; it is a parameter
  `model : List ℕ → List ℕ → List (List ℚ)` mapping `(input_ids,
  attention_mask)` to a logits tensor indexed by (sequence position,
  vocabulary index).  The batch dimension of the notebook, which is always 1,
  is elided.
* `np.random.choice(n, 1, p=probs)` draws from a process-wide random stream;
  it is modelled as an injected sampler `choice : ℕ → List ℝ → ℕ` receiving
  the index of the draw within the call and the probability row.
* The `while True:` loop of `generate_sequence` need not terminate, so the
  embedding takes a fuel argument and returns `none` when fuel runs out.
* Python text is modelled as `List Char`; the tokenizer is an external
  collaborator given by parameters `encode`/`decode`.
-/

set_option maxRecDepth 10000

namespace TextPrediction

/-- Python-style sequence indexing: a negative index `i` addresses position
`len + i` from the start, as in `outputs[:, cur_input_len - 1, :]` when
`cur_input_len = 0`.  Out-of-range access (an exception in Python) returns
the default. -/
def pyGet {α : Type} (l : List α) (i : ℤ) (d : α) : α :=
  if i < 0 then l.getD (l.length - (-i).toNat) d else l.getD i.toNat d

/-- Embeds `process_logits(cur_length, scores, eos_token_id, min_length=0)`:
when `cur_length < min_length` the score at the eos index is overwritten with
`-inf` (here `⊥`), otherwise the scores are returned unchanged. -/
def process_logits (cur_length : ℕ) (scores : List (WithBot ℚ)) (eos_token_id : ℕ)
    (min_length : ℕ := 0) : List (WithBot ℚ) :=
  if cur_length < min_length then scores.set eos_token_id ⊥ else scores

/-- Embeds `-np.sort(-scores)`: the scores row sorted in descending order. -/
def sortDesc (l : List (WithBot ℚ)) : List (WithBot ℚ) :=
  l.insertionSort (· ≥ ·)

/-- Embeds `np.min` on a row (junk value `⊥` on the empty row, where NumPy
raises). -/
def listMin : List (WithBot ℚ) → WithBot ℚ
  | [] => ⊥
  | x :: xs => xs.foldl min x

/-- Embeds `np.max` on a row (junk value `⊥` on the empty row, where NumPy
raises). -/
def listMax : List (WithBot ℚ) → WithBot ℚ
  | [] => ⊥
  | x :: xs => xs.foldl max x

/-- Embeds `get_top_k_logits(scores, top_k)`: clamp `top_k` to
`[1, len(scores)]`, take the minimum of the `top_k` largest entries as the
threshold, and replace every entry strictly below the threshold with `-inf`
(the masked-array fill of the notebook). -/
def get_top_k_logits (scores : List (WithBot ℚ)) (top_k : ℤ) : List (WithBot ℚ) :=
  scores.map (fun s =>
    if s < listMin ((sortDesc scores).take (min (max top_k 1) (scores.length : ℤ)).toNat)
    then (⊥ : WithBot ℚ) else s)

/-- Modelled from the spec: the `k`-th highest score of a row (1-based), the
threshold the spec's description of top-k filtering refers to. -/
def kthHighest (scores : List (WithBot ℚ)) (k : ℕ) : WithBot ℚ :=
  (sortDesc scores).getD (k - 1) ⊥

/-- Embeds `np.exp(x - np.max(x))` on one entry: `exp(-inf) = 0`, and the
case of a `-inf` row maximum (NumPy `nan`, unreachable whenever some entry is
finite) is given the junk value 0. -/
noncomputable def expShift (m s : WithBot ℚ) : ℝ :=
  if s = ⊥ then 0
  else if m = ⊥ then 0
  else Real.exp (((s.unbot' 0 : ℚ) : ℝ) - ((m.unbot' 0 : ℚ) : ℝ))

/-- Embeds `softmax(x)`: subtract the row maximum, exponentiate, and
normalize by the row sum. -/
noncomputable def softmax (x : List (WithBot ℚ)) : List ℝ :=
  (x.map (expShift (listMax x))).map
    (fun v => v / (x.map (expShift (listMax x))).sum)

/-- Embeds one iteration's sampling pipeline of `generate_sequence`: build
the model input for the active shape mode, read the logits row at Python
index `cur_input_len - 1`, post-process, top-k filter with `top_k = 20`,
convert to probabilities, and draw the next token. -/
noncomputable def nextTokenAt (model : List ℕ → List ℕ → List (List ℚ))
    (choice : ℕ → List ℝ → ℕ) (t : ℕ) (input_ids attention_mask : List ℕ)
    (max_sequence_length eos_token_id : ℕ) (dynamic_shapes : Bool) : ℕ :=
  let cur_input_len := input_ids.length
  let pad_len := max_sequence_length - cur_input_len
  let model_input_ids :=
    if dynamic_shapes then input_ids
    else input_ids ++ List.replicate pad_len eos_token_id
  let model_input_attention_mask :=
    if dynamic_shapes then attention_mask
    else attention_mask ++ List.replicate pad_len 0
  let outputs := model model_input_ids model_input_attention_mask
  let next_token_logits := pyGet outputs ((cur_input_len : ℤ) - 1) []
  let next_token_scores :=
    process_logits cur_input_len (next_token_logits.map (fun q => (q : WithBot ℚ)))
      eos_token_id
  let filtred_scores := get_top_k_logits next_token_scores 20
  let probs := softmax filtred_scores
  choice t probs

/-- Embeds the `while True:` loop of `generate_sequence(input_ids,
attention_mask, max_sequence_length, eos_token_id, dynamic_shapes)`.  Each
iteration samples a next token, then checks termination *before* appending:
the loop stops, returning the ids as they stand, when the current length
equals `max_sequence_length` or the sampled token is the eos id; otherwise
the token is appended (with a 1 on the mask) and the loop repeats.  `fuel`
bounds the number of iterations; `none` models non-termination within the
given fuel. -/
noncomputable def generate_sequence (model : List ℕ → List ℕ → List (List ℚ))
    (choice : ℕ → List ℝ → ℕ) :
    ℕ → ℕ → List ℕ → List ℕ → ℕ → ℕ → Bool → Option (List ℕ)
  | 0, _, _, _, _, _, _ => none
  | fuel + 1, t, input_ids, attention_mask, max_sequence_length, eos_token_id,
      dynamic_shapes =>
    if input_ids.length = max_sequence_length ∨
        nextTokenAt model choice t input_ids attention_mask max_sequence_length
          eos_token_id dynamic_shapes = eos_token_id then
      some input_ids
    else
      generate_sequence model choice fuel (t + 1)
        (input_ids ++ [nextTokenAt model choice t input_ids attention_mask
          max_sequence_length eos_token_id dynamic_shapes])
        (attention_mask ++ [1]) max_sequence_length eos_token_id dynamic_shapes

/-- Embeds the scan of Python `str.split(sep)` for a non-empty separator
`a :: s`: find the leftmost occurrence of the separator, cut there, and
continue after it.  The fuel argument (instantiated with the length of the
scanned list) makes the recursion structural. -/
def splitGoF {α : Type} [DecidableEq α] (a : α) (s : List α) :
    ℕ → List α → List (List α)
  | _, [] => [[]]
  | 0, l => [l]
  | fuel + 1, x :: xs =>
    if (a :: s).isPrefixOf (x :: xs) then
      [] :: splitGoF a s fuel (xs.drop s.length)
    else
      match splitGoF a s fuel xs with
      | [] => [[x]]
      | u :: us => (x :: u) :: us

/-- Embeds Python `str.split(sep)` on `List`-modelled strings (Python raises
on an empty separator; that case is given the junk value `[l]`). -/
def pySplit {α : Type} [DecidableEq α] (sep l : List α) : List (List α) :=
  match sep with
  | [] => [l]
  | a :: s => splitGoF a s l.length l

/-- Embeds the history-concatenation step of `converse`: tokenize the user
input with the eos string appended, and prepend the existing history when it
is non-empty. -/
def botIds (encode : List Char → List ℕ) (input : List Char) (history : List ℕ)
    (eos_token : List Char) : List ℕ :=
  let new_user_input_ids := encode (input ++ eos_token)
  if history.length = 0 then new_user_input_ids
  else history ++ new_user_input_ids

/-- Embeds `converse(input, history, eos_token, eos_token_id)`: build the
model input from history and the freshly tokenized user input, run
`generate_sequence` with `max_sequence_length = 1000` and dynamic shapes,
append the eos id to the output, decode every token and join, split the text
on the eos string, and return the segment at Python index `-2` together with
the updated token history.  `none` models a decoding loop that did not
terminate within the fuel. -/
noncomputable def converse (encode : List Char → List ℕ) (decode : ℕ → List Char)
    (model : List ℕ → List ℕ → List (List ℚ)) (choice : ℕ → List ℝ → ℕ)
    (fuel t : ℕ) (input : List Char) (history : List ℕ)
    (eos_token : List Char) (eos_token_id : ℕ) : Option (List Char × List ℕ) :=
  match generate_sequence model choice fuel t (botIds encode input history eos_token)
      (List.replicate (botIds encode input history eos_token).length 1)
      1000 eos_token_id true with
  | none => none
  | some out =>
    some (pyGet (pySplit eos_token (((out ++ [eos_token_id]).map decode).flatten)) (-2) [],
      out ++ [eos_token_id])

/-- Stub Model Inference Port for reproducible checks (the spec's testable
properties run `generate` against a stubbed port): a constant logits tensor. -/
def stubModel : List ℕ → List ℕ → List (List ℚ) := fun _ _ => [[1]]

/-- Stub sampler that always draws the same token id. -/
def stubChoice (v : ℕ) : ℕ → List ℝ → ℕ := fun _ _ => v

/-- Stub sampler that draws `v` on the first draw of a call and `w` on every
later draw. -/
def stubChoiceSeq (v w : ℕ) : ℕ → List ℝ → ℕ := fun t _ => if t = 0 then v else w

/-- Stub sampler extensionally equal to `stubChoice 5`, written differently. -/
def stubChoiceAlt : ℕ → List ℝ → ℕ := fun _ _ => 0 + 5

/-- Stub tokenizer encoder: every text tokenizes to `[1, 0]`. -/
def stubEncode : List Char → List ℕ := fun _ => [1, 0]

/-- Stub tokenizer decoder with eos id 0 decoding to the string `"E"` and
every other id to `"a"`. -/
def stubDecode : ℕ → List Char := fun n => if n = 0 then ['E'] else ['a']

/-- States that a candidate response text has no occurrence of the separator
that begins strictly before the closing separator that follows it: scanning
`G ++ sep` left to right, the first match starts exactly at `G.length`. -/
def NoEarlyMatch {α : Type} [DecidableEq α] (sep G : List α) : Prop :=
  ∀ p < G.length, ¬ (sep.isPrefixOf ((G ++ sep).drop p) = true)

instance noEarlyMatchDecidable {α : Type} [DecidableEq α] (sep G : List α) :
    Decidable (NoEarlyMatch sep G) :=
  inferInstanceAs
    (Decidable (∀ p < G.length, ¬ (sep.isPrefixOf ((G ++ sep).drop p) = true)))

/-- States that a decoded text is a well-formed sequence of completed turns:
a concatenation of segments each flush-terminated by the separator, none of
which matches the separator early. -/
def FlushParts {α : Type} [DecidableEq α] (sep P : List α) : Prop :=
  ∃ segs : List (List α),
    P = (segs.map (fun seg => seg ++ sep)).flatten ∧
    ∀ seg ∈ segs, NoEarlyMatch sep seg

theorem nextTokenAt_ne {model : List ℕ → List ℕ → List (List ℚ)}
    {choice : ℕ → List ℝ → ℕ} (t : ℕ) (input_ids attention_mask : List ℕ)
    (max_sequence_length eos_token_id : ℕ) (dynamic_shapes : Bool) (v : ℕ)
    (hch : ∀ u p, choice u p ≠ v) :
    nextTokenAt model choice t input_ids attention_mask max_sequence_length
      eos_token_id dynamic_shapes ≠ v :=
  hch t _

/-- C1: the decoding loop's termination check runs before appending the
sampled token: whenever the current logical length equals
`max_sequence_length` or the sampled token equals the eos id, the loop stops
and returns the ids unchanged, so the sampled token is not appended in
either branch; in particular with `max_sequence_length` equal to the current
length the input comes back unchanged. -/
theorem c1_termination_check (model : List ℕ → List ℕ → List (List ℚ))
    (choice : ℕ → List ℝ → ℕ) (fuel t : ℕ) (input_ids attention_mask : List ℕ)
    (max_sequence_length eos_token_id : ℕ) (dynamic_shapes : Bool)
    (h : input_ids.length = max_sequence_length ∨
      nextTokenAt model choice t input_ids attention_mask max_sequence_length
        eos_token_id dynamic_shapes = eos_token_id) :
    generate_sequence model choice (fuel + 1) t input_ids attention_mask
      max_sequence_length eos_token_id dynamic_shapes = some input_ids := by
  simp only [generate_sequence]
  rw [if_pos h]

theorem c1_witness :
    generate_sequence stubModel (stubChoice 7) 4 0 [3, 5] [1, 1] 2 0 true
      = some [3, 5] :=
  c1_termination_check stubModel (stubChoice 7) 3 0 [3, 5] [1, 1] 2 0 true
    (Or.inl rfl)

/-- C9: the decoding loop is deterministic in its injected randomness: with
the same model port, two samplers that give the same draw at every step
produce identical output sequences on identical inputs and config. -/
theorem c9_determinism (model : List ℕ → List ℕ → List (List ℚ))
    (choice1 choice2 : ℕ → List ℝ → ℕ) (h : ∀ u p, choice1 u p = choice2 u p)
    (fuel t : ℕ) (input_ids attention_mask : List ℕ)
    (max_sequence_length eos_token_id : ℕ) (dynamic_shapes : Bool) :
    generate_sequence model choice1 fuel t input_ids attention_mask
        max_sequence_length eos_token_id dynamic_shapes =
      generate_sequence model choice2 fuel t input_ids attention_mask
        max_sequence_length eos_token_id dynamic_shapes := by
  have hc : choice1 = choice2 := funext fun u => funext fun p => h u p
  rw [hc]

theorem c9_witness :
    generate_sequence stubModel (stubChoice 5) 2 0 [1] [1] 9 0 true =
      generate_sequence stubModel stubChoiceAlt 2 0 [1] [1] 9 0 true :=
  c9_determinism stubModel (stubChoice 5) stubChoiceAlt (fun _ _ => rfl)
    2 0 [1] [1] 9 0 true

/-- C6: when `cur_length < min_length`, `process_logits` sets the score at
the eos index to `-inf` and leaves every other index unchanged; when
`cur_length ≥ min_length` it returns the scores entirely unchanged. -/
theorem c6_suppress_end_token (cur_length min_length eos_token_id : ℕ)
    (scores : List (WithBot ℚ)) (h : eos_token_id < scores.length) :
    (cur_length < min_length →
      (process_logits cur_length scores eos_token_id min_length).getD
          eos_token_id ⊥ = ⊥ ∧
      (process_logits cur_length scores eos_token_id min_length).length
          = scores.length ∧
      ∀ i < scores.length, i ≠ eos_token_id →
        (process_logits cur_length scores eos_token_id min_length).getD i ⊥
          = scores.getD i ⊥) ∧
    (min_length ≤ cur_length →
      process_logits cur_length scores eos_token_id min_length = scores) := by
  constructor
  · intro hlt
    unfold process_logits
    rw [if_pos hlt]
    refine ⟨?_, by simp, ?_⟩
    · simp [List.getD_eq_getElem?_getD, List.getElem?_set_self, h]
    · intro i _ hne
      simp [List.getD_eq_getElem?_getD, List.getElem?_set_ne (Ne.symm hne)]
  · intro hge
    unfold process_logits
    rw [if_neg (Nat.not_lt.mpr hge)]

theorem c6_witness :
    (2 < 3 →
      (process_logits 2 [4, 5, 6] 1 3).getD 1 ⊥ = ⊥ ∧
      (process_logits 2 [4, 5, 6] 1 3).length = ([4, 5, 6] : List (WithBot ℚ)).length ∧
      ∀ i < ([4, 5, 6] : List (WithBot ℚ)).length, i ≠ 1 →
        (process_logits 2 [4, 5, 6] 1 3).getD i ⊥ = ([4, 5, 6] : List (WithBot ℚ)).getD i ⊥) ∧
    (3 ≤ 2 → process_logits 2 [4, 5, 6] 1 3 = [4, 5, 6]) :=
  c6_suppress_end_token 2 3 1 [4, 5, 6] (by decide)

theorem generate_sequence_none_of_over_length (model : List ℕ → List ℕ → List (List ℚ))
    (choice : ℕ → List ℝ → ℕ) (max_sequence_length eos_token_id : ℕ)
    (dynamic_shapes : Bool) (hch : ∀ u p, choice u p ≠ eos_token_id) :
    ∀ fuel t input_ids attention_mask, max_sequence_length < input_ids.length →
      generate_sequence model choice fuel t input_ids attention_mask
        max_sequence_length eos_token_id dynamic_shapes = none := by
  intro fuel
  induction fuel with
  | zero => intro t ids mask _; rfl
  | succ n ih =>
    intro t ids mask hlen
    simp only [generate_sequence]
    rw [if_neg]
    · exact ih (t + 1) _ _ (by simp; omega)
    · rintro (h1 | h2)
      · omega
      · exact nextTokenAt_ne t ids mask max_sequence_length eos_token_id
          dynamic_shapes eos_token_id hch h2

/-- C10: the length-based stop of the decoding loop is an equality test, so
for a call whose logical length strictly exceeds `max_sequence_length` the
cap never fires and the loop can only stop by sampling eos: with a sampler
that never draws eos, no amount of fuel makes the loop return.  The
conversation path inherits this: once the history passed to the loop
exceeds the fixed budget of 1000 tokens, `converse` with such a sampler
never returns either. -/
theorem c10_length_cap_bypass (model : List ℕ → List ℕ → List (List ℚ))
    (choice : ℕ → List ℝ → ℕ) (encode : List Char → List ℕ)
    (decode : ℕ → List Char) (fuel t : ℕ) (input_ids attention_mask : List ℕ)
    (max_sequence_length eos_token_id : ℕ) (dynamic_shapes : Bool)
    (input : List Char) (history : List ℕ) (eos_token : List Char)
    (hch : ∀ u p, choice u p ≠ eos_token_id)
    (hlen : max_sequence_length < input_ids.length)
    (hhist : 1000 < (botIds encode input history eos_token).length) :
    generate_sequence model choice fuel t input_ids attention_mask
        max_sequence_length eos_token_id dynamic_shapes = none ∧
    converse encode decode model choice fuel t input history eos_token
        eos_token_id = none := by
  constructor
  · exact generate_sequence_none_of_over_length model choice max_sequence_length
      eos_token_id dynamic_shapes hch fuel t input_ids attention_mask hlen
  · unfold converse
    rw [generate_sequence_none_of_over_length model choice 1000 eos_token_id
      true hch fuel t _ _ hhist]

theorem c10_witness :
    generate_sequence stubModel (stubChoice 7) 3 0 [1, 2] [1, 1] 1 0 true
        = none ∧
    converse stubEncode stubDecode stubModel (stubChoice 7) 3 0 ['h']
        (List.replicate 1001 1) ['E'] 0 = none :=
  c10_length_cap_bypass stubModel (stubChoice 7) stubEncode stubDecode 3 0
    [1, 2] [1, 1] 1 0 true ['h'] (List.replicate 1001 1) ['E']
    (fun _ _ => by simp [stubChoice]) (by decide) (by simp [botIds, stubEncode])

theorem c5_counterexample :
    generate_sequence stubModel (stubChoiceSeq 7 0) 2 0 [] [] 5 0 true
      = some [7] := rfl

/-- C5: contrary to the claimed synchronous `EmptyInput` rejection, the
decoding loop performs no empty-input validation: started on a zero-length
sequence it enters the per-step logic like any other state (indexing the
logits row at Python index `-1`) and, when the first sampled token is not
eos and the length cap does not fire, appends that token and continues. -/
theorem c5_no_empty_input_rejection (model : List ℕ → List ℕ → List (List ℚ))
    (choice : ℕ → List ℝ → ℕ) (fuel t : ℕ) (attention_mask : List ℕ)
    (max_sequence_length eos_token_id : ℕ) (dynamic_shapes : Bool)
    (hmax : max_sequence_length ≠ 0)
    (hne : nextTokenAt model choice t [] attention_mask max_sequence_length
      eos_token_id dynamic_shapes ≠ eos_token_id) :
    generate_sequence model choice (fuel + 1) t [] attention_mask
        max_sequence_length eos_token_id dynamic_shapes =
      generate_sequence model choice fuel (t + 1)
        [nextTokenAt model choice t [] attention_mask max_sequence_length
          eos_token_id dynamic_shapes]
        (attention_mask ++ [1]) max_sequence_length eos_token_id
        dynamic_shapes := by
  simp only [generate_sequence]
  rw [if_neg]
  · rfl
  · rintro (h1 | h2)
    · exact hmax h1.symm
    · exact hne h2

theorem c5_witness :
    generate_sequence stubModel (stubChoice 7) 3 0 [] [] 5 0 true =
      generate_sequence stubModel (stubChoice 7) 2 1
        [nextTokenAt stubModel (stubChoice 7) 0 [] [] 5 0 true] ([] ++ [1])
        5 0 true :=
  c5_no_empty_input_rejection stubModel (stubChoice 7) 2 0 [] 5 0 true
    (by decide) (by decide)

theorem generate_sequence_some (model : List ℕ → List ℕ → List (List ℚ))
    (choice : ℕ → List ℝ → ℕ) :
    ∀ fuel t input_ids attention_mask max_sequence_length eos_token_id
      dynamic_shapes out,
      generate_sequence model choice fuel t input_ids attention_mask
        max_sequence_length eos_token_id dynamic_shapes = some out →
      ∃ app, out = input_ids ++ app ∧ ∀ x ∈ app, x ≠ eos_token_id := by
  intro fuel
  induction fuel with
  | zero =>
    intro t ids mask maxL eos dyn out h
    exact absurd h (by simp [generate_sequence])
  | succ n ih =>
    intro t ids mask maxL eos dyn out h
    simp only [generate_sequence] at h
    by_cases hg : ids.length = maxL ∨
        nextTokenAt model choice t ids mask maxL eos dyn = eos
    · rw [if_pos hg] at h
      exact ⟨[], by simpa using (Option.some.inj h).symm, by simp⟩
    · rw [if_neg hg] at h
      obtain ⟨app, happ, hne⟩ := ih _ _ _ _ _ _ _ h
      push_neg at hg
      refine ⟨nextTokenAt model choice t ids mask maxL eos dyn :: app, ?_, ?_⟩
      · rw [happ, List.append_assoc]
        rfl
      · intro x hx
        rcases List.mem_cons.mp hx with rfl | hx
        · exact hg.2
        · exact hne x hx

theorem le_botIds_length (encode : List Char → List ℕ) (input : List Char)
    (history : List ℕ) (eos_token : List Char) :
    history.length ≤ (botIds encode input history eos_token).length := by
  unfold botIds
  by_cases h : history.length = 0
  · rw [if_pos h]
    omega
  · rw [if_neg h]
    simp

theorem c2_counterexample :
    Option.map Prod.snd (converse stubEncode stubDecode stubModel
        (stubChoice 0) 1 0 ['h'] [] ['E'] 0) = some [1, 0, 0] ∧
    ([1, 0, 0] : List ℕ).getD 2 9 = 0 ∧ ([1, 0, 0] : List ℕ).getD 1 9 = 0 :=
  ⟨rfl, rfl, rfl⟩

/-- C2 (amended): every completed conversation turn appends the eos id to
the decoding loop's output unconditionally, so the returned history always
ends with the eos id, and the history length never decreases across turns;
when the decoding loop appended at least one token, the trailing eos is not
duplicated (the token before it is not eos).  When the loop appends nothing
— the prompt already ends with the delimiter — the trailing delimiter IS
duplicated, which is the correction to the claim. -/
theorem c2_history_delimiters (encode : List Char → List ℕ)
    (decode : ℕ → List Char) (model : List ℕ → List ℕ → List (List ℚ))
    (choice : ℕ → List ℝ → ℕ) (fuel t : ℕ) (input : List Char)
    (history : List ℕ) (eos_token : List Char) (eos_token_id : ℕ)
    (h2 : List ℕ)
    (hc : Option.map Prod.snd (converse encode decode model choice fuel t
      input history eos_token eos_token_id) = some h2) :
    h2.getLast? = some eos_token_id ∧
    history.length ≤ h2.length ∧
    ((botIds encode input history eos_token).length + 1 < h2.length →
      h2.getD (h2.length - 2) eos_token_id ≠ eos_token_id) := by
  unfold converse at hc
  rcases hg : generate_sequence model choice fuel t
      (botIds encode input history eos_token)
      (List.replicate (botIds encode input history eos_token).length 1)
      1000 eos_token_id true with _ | out
  · rw [hg] at hc
    simp at hc
  · rw [hg] at hc
    simp only [Option.map_some'] at hc
    obtain rfl : out ++ [eos_token_id] = h2 := Option.some.inj hc
    obtain ⟨app, happ, hne⟩ := generate_sequence_some model choice fuel t _ _
      1000 eos_token_id true out hg
    have hblen := le_botIds_length encode input history eos_token
    refine ⟨List.getLast?_concat _, ?_, ?_⟩
    · rw [happ]
      simp only [List.length_append, List.length_cons, List.length_nil]
      omega
    · intro hlt
      have houtlen : (botIds encode input history eos_token).length < out.length := by
        simp only [List.length_append, List.length_cons, List.length_nil] at hlt
        omega
    -- the second-to-last entry of the returned history is the last entry of
    -- the loop output, which is the last appended token, and appended
    -- tokens are never eos
      have happne : app ≠ [] := by
        intro hnil
        rw [happ, hnil, List.append_nil] at houtlen
        omega
      have houtne : out ≠ [] := by
        intro hnil
        rw [hnil] at houtlen
        simp at houtlen
      have hidx : (out ++ [eos_token_id]).length - 2 = out.length - 1 := by
        simp
      rw [hidx]
      have hi : out.length - 1 < out.length := by
        have := List.length_pos.mpr houtne
        omega
      rw [List.getD_eq_getElem?_getD, List.getElem?_append_left hi,
        ← List.getLast?_eq_getElem?, List.getLast?_eq_getLast out houtne]
      have hmem : out.getLast houtne ∈ app := by
        have h1 : out.getLast? = app.getLast? := by
          rw [happ]
          exact List.getLast?_append_of_ne_nil _ happne
        rw [List.getLast?_eq_getLast out houtne,
          List.getLast?_eq_getLast app happne] at h1
        rw [Option.some.inj h1]
        exact List.getLast_mem happne
      simp only [Option.getD_some]
      exact hne _ hmem

theorem c2_witness :
    ([1, 0, 7, 0] : List ℕ).getLast? = some 0 ∧
    ([] : List ℕ).length ≤ ([1, 0, 7, 0] : List ℕ).length ∧
    ((botIds stubEncode ['h'] [] ['E']).length + 1 < ([1, 0, 7, 0] : List ℕ).length →
      ([1, 0, 7, 0] : List ℕ).getD (([1, 0, 7, 0] : List ℕ).length - 2) 0 ≠ 0) :=
  c2_history_delimiters stubEncode stubDecode stubModel (stubChoiceSeq 7 0)
    2 0 ['h'] [] ['E'] 0 [1, 0, 7, 0] rfl

theorem getD_eq_getElem_of_lt {α : Type} (l : List α) (d : α) (i : ℕ)
    (h : i < l.length) : l.getD i d = l[i] := by
  rw [List.getD_eq_getElem?_getD, List.getElem?_eq_getElem h]
  rfl

theorem foldl_min_mem (l : List (WithBot ℚ)) :
    ∀ a : WithBot ℚ, l.foldl min a ∈ a :: l := by
  induction l with
  | nil => intro a; simp
  | cons x xs ih =>
    intro a
    have h := ih (min a x)
    simp only [List.foldl_cons]
    rcases List.mem_cons.mp h with h1 | h1
    · rcases min_choice a x with hm | hm
      · exact List.mem_cons.mpr (Or.inl (h1.trans hm))
      · exact List.mem_cons.mpr (Or.inr (List.mem_cons.mpr (Or.inl (h1.trans hm))))
    · exact List.mem_cons.mpr (Or.inr (List.mem_cons.mpr (Or.inr h1)))

theorem foldl_min_le (l : List (WithBot ℚ)) :
    ∀ a : WithBot ℚ, l.foldl min a ≤ a ∧ ∀ x ∈ l, l.foldl min a ≤ x := by
  induction l with
  | nil => intro a; simp
  | cons x xs ih =>
    intro a
    obtain ⟨h1, h2⟩ := ih (min a x)
    simp only [List.foldl_cons]
    refine ⟨le_trans h1 (min_le_left a x), ?_⟩
    intro y hy
    rcases List.mem_cons.mp hy with rfl | hy
    · exact le_trans h1 (min_le_right a y)
    · exact h2 y hy

theorem listMin_mem : ∀ l : List (WithBot ℚ), l ≠ [] → listMin l ∈ l
  | [], h => absurd rfl h
  | _ :: xs, _ => foldl_min_mem xs _

theorem listMin_le : ∀ l : List (WithBot ℚ), ∀ x ∈ l, listMin l ≤ x
  | x :: xs, y, hy => by
    rcases List.mem_cons.mp hy with rfl | hy
    · exact (foldl_min_le xs y).1
    · exact (foldl_min_le xs x).2 y hy

theorem foldl_max_mem (l : List (WithBot ℚ)) :
    ∀ a : WithBot ℚ, l.foldl max a ∈ a :: l := by
  induction l with
  | nil => intro a; simp
  | cons x xs ih =>
    intro a
    have h := ih (max a x)
    simp only [List.foldl_cons]
    rcases List.mem_cons.mp h with h1 | h1
    · rcases max_choice a x with hm | hm
      · exact List.mem_cons.mpr (Or.inl (h1.trans hm))
      · exact List.mem_cons.mpr (Or.inr (List.mem_cons.mpr (Or.inl (h1.trans hm))))
    · exact List.mem_cons.mpr (Or.inr (List.mem_cons.mpr (Or.inr h1)))

theorem foldl_le_max (l : List (WithBot ℚ)) :
    ∀ a : WithBot ℚ, a ≤ l.foldl max a ∧ ∀ x ∈ l, x ≤ l.foldl max a := by
  induction l with
  | nil => intro a; simp
  | cons x xs ih =>
    intro a
    obtain ⟨h1, h2⟩ := ih (max a x)
    simp only [List.foldl_cons]
    refine ⟨le_trans (le_max_left a x) h1, ?_⟩
    intro y hy
    rcases List.mem_cons.mp hy with rfl | hy
    · exact le_trans (le_max_right a y) h1
    · exact h2 y hy

theorem listMax_mem : ∀ l : List (WithBot ℚ), l ≠ [] → listMax l ∈ l
  | [], h => absurd rfl h
  | _ :: xs, _ => foldl_max_mem xs _

theorem le_listMax : ∀ l : List (WithBot ℚ), ∀ x ∈ l, x ≤ listMax l
  | x :: xs, y, hy => by
    rcases List.mem_cons.mp hy with rfl | hy
    · exact (foldl_le_max xs y).1
    · exact (foldl_le_max xs x).2 y hy

theorem sortDesc_sorted (l : List (WithBot ℚ)) :
    List.Sorted (· ≥ ·) (sortDesc l) :=
  List.sorted_insertionSort _ l

theorem sortDesc_perm (l : List (WithBot ℚ)) : List.Perm (sortDesc l) l :=
  List.perm_insertionSort _ l

theorem sortDesc_length (l : List (WithBot ℚ)) :
    (sortDesc l).length = l.length :=
  (sortDesc_perm l).length_eq

theorem sortDesc_mem (l : List (WithBot ℚ)) (x : WithBot ℚ) :
    x ∈ sortDesc l ↔ x ∈ l :=
  (sortDesc_perm l).mem_iff

theorem sortDesc_getD_anti (l : List (WithBot ℚ)) (i j : ℕ) (hij : i ≤ j)
    (hj : j < (sortDesc l).length) :
    (sortDesc l).getD j ⊥ ≤ (sortDesc l).getD i ⊥ := by
  have hi : i < (sortDesc l).length := lt_of_le_of_lt hij hj
  rw [getD_eq_getElem_of_lt _ _ _ hj, getD_eq_getElem_of_lt _ _ _ hi]
  rcases Nat.lt_or_ge i j with hlt | hge
  · have hfin : (⟨i, hi⟩ : Fin (sortDesc l).length) < ⟨j, hj⟩ := hlt
    have := @List.Sorted.rel_get_of_lt _ _ _ (sortDesc_sorted l) ⟨i, hi⟩ ⟨j, hj⟩ hfin
    simpa [List.get_eq_getElem] using this
  · have hij2 : i = j := le_antisymm hij hge
    subst hij2
    exact le_refl _

theorem listMin_take_sortDesc (scores : List (WithBot ℚ)) (k : ℕ) (hk1 : 1 ≤ k)
    (hk2 : k ≤ scores.length) :
    listMin ((sortDesc scores).take k) = kthHighest scores k := by
  have hlen : (sortDesc scores).length = scores.length := sortDesc_length scores
  have htlen : ((sortDesc scores).take k).length = k := by
    simp only [List.length_take]
    omega
  have htne : (sortDesc scores).take k ≠ [] := by
    intro h0
    rw [h0] at htlen
    simp at htlen
    omega
  have hkidx : k - 1 < (sortDesc scores).length := by omega
  rw [kthHighest, getD_eq_getElem_of_lt _ _ _ hkidx]
  obtain ⟨j, hj, hjeq⟩ := List.mem_iff_getElem.mp (listMin_mem _ htne)
  have hjk : j < k := by
    rw [htlen] at hj
    exact hj
  have hjlen : j < (sortDesc scores).length := by omega
  have hjval : ((sortDesc scores).take k)[j] = (sortDesc scores)[j] :=
    List.getElem_take _
  apply le_antisymm
  · apply listMin_le
    rw [List.mem_iff_getElem]
    refine ⟨k - 1, by omega, ?_⟩
    exact List.getElem_take _
  · rw [← hjeq, hjval]
    have := sortDesc_getD_anti scores j (k - 1) (by omega) hkidx
    rwa [getD_eq_getElem_of_lt _ _ _ hkidx, getD_eq_getElem_of_lt _ _ _ hjlen]
      at this

theorem get_top_k_logits_eq (scores : List (WithBot ℚ)) (k : ℤ)
    (h : scores ≠ []) :
    get_top_k_logits scores k =
      scores.map (fun s =>
        if s < kthHighest scores (min (max k 1) (scores.length : ℤ)).toNat
        then (⊥ : WithBot ℚ) else s) := by
  have hl : 0 < scores.length := List.length_pos.mpr h
  unfold get_top_k_logits
  rw [listMin_take_sortDesc scores (min (max k 1) (scores.length : ℤ)).toNat
    (by omega) (by omega)]

/-- C3: for a non-empty scores row of length `N` and any integer `k`,
`get_top_k_logits` first clamps `k` to `[1, N]`, then replaces exactly the
entries whose score is strictly less than the k-th highest score with `-inf`
and leaves every other entry (including all ties at the threshold)
unchanged. -/
theorem c3_top_k_filter_spec (scores : List (WithBot ℚ)) (k : ℤ)
    (h : scores ≠ []) :
    1 ≤ (min (max k 1) (scores.length : ℤ)).toNat ∧
    (min (max k 1) (scores.length : ℤ)).toNat ≤ scores.length ∧
    (get_top_k_logits scores k).length = scores.length ∧
    ∀ i < scores.length,
      (get_top_k_logits scores k).getD i ⊥ =
        if scores.getD i ⊥ <
            kthHighest scores (min (max k 1) (scores.length : ℤ)).toNat
        then ⊥ else scores.getD i ⊥ := by
  have hl : 0 < scores.length := List.length_pos.mpr h
  refine ⟨by omega, by omega, by simp [get_top_k_logits], ?_⟩
  intro i hi
  rw [get_top_k_logits_eq scores k h]
  have hmi : i < (scores.map (fun s =>
      if s < kthHighest scores (min (max k 1) (scores.length : ℤ)).toNat
      then (⊥ : WithBot ℚ) else s)).length := by
    simpa using hi
  rw [getD_eq_getElem_of_lt _ _ _ hmi, getD_eq_getElem_of_lt _ _ _ hi,
    List.getElem_map]

theorem c3_witness :
    (get_top_k_logits [5, 3, 7] 2).getD 1 ⊥ =
      if ([5, 3, 7] : List (WithBot ℚ)).getD 1 ⊥ <
          kthHighest [5, 3, 7] (min (max (2 : ℤ) 1)
            (([5, 3, 7] : List (WithBot ℚ)).length : ℤ)).toNat
      then ⊥ else ([5, 3, 7] : List (WithBot ℚ)).getD 1 ⊥ :=
  (c3_top_k_filter_spec [5, 3, 7] 2 (by decide)).2.2.2 1 (by decide)

theorem kthHighest_one (scores : List (WithBot ℚ)) (h : scores ≠ []) :
    kthHighest scores 1 = listMax scores := by
  have hl : 0 < (sortDesc scores).length := by
    rw [sortDesc_length]
    exact List.length_pos.mpr h
  rw [kthHighest, show (1 : ℕ) - 1 = 0 from rfl, getD_eq_getElem_of_lt _ _ _ hl]
  apply le_antisymm
  · exact le_listMax _ _ ((sortDesc_mem _ _).mp (List.getElem_mem hl))
  · obtain ⟨j, hj, hjeq⟩ :=
      List.mem_iff_getElem.mp ((sortDesc_mem _ _).mpr (listMax_mem _ h))
    rw [← hjeq]
    have := sortDesc_getD_anti scores 0 j (by omega) hj
    rwa [getD_eq_getElem_of_lt _ _ _ hj, getD_eq_getElem_of_lt _ _ _ hl]
      at this

/-- C7: for a non-empty scores row, `get_top_k_logits` with `k ≥ N` returns
the input unchanged, and with `k = 1` leaves exactly the maximum-scoring
entries (including ties) unchanged while every other entry becomes `-inf`. -/
theorem c7_top_k_edge_cases (scores : List (WithBot ℚ)) (k : ℤ)
    (h : scores ≠ []) (hk : (scores.length : ℤ) ≤ k) :
    get_top_k_logits scores k = scores ∧
    ∀ i < scores.length,
      (get_top_k_logits scores 1).getD i ⊥ =
        if scores.getD i ⊥ = listMax scores then scores.getD i ⊥ else ⊥ := by
  have hl : 0 < scores.length := List.length_pos.mpr h
  constructor
  · rw [get_top_k_logits_eq scores k h]
    have hkc : (min (max k 1) (scores.length : ℤ)).toNat = scores.length := by
      omega
    rw [hkc]
    have hnone : ∀ s ∈ scores, ¬ s < kthHighest scores scores.length := by
      intro s hs
      obtain ⟨j, hj, hjeq⟩ :=
        List.mem_iff_getElem.mp ((sortDesc_mem _ _).mpr hs)
      have hanti := sortDesc_getD_anti scores j (scores.length - 1)
        (by rw [sortDesc_length] at hj; omega)
        (by rw [sortDesc_length]; omega)
      rw [kthHighest]
      rw [getD_eq_getElem_of_lt _ _ _ (by rw [sortDesc_length]; omega)] at hanti ⊢
      rw [getD_eq_getElem_of_lt _ _ _ hj] at hanti
      rw [hjeq] at hanti
      exact not_lt.mpr hanti
    have hfun : ∀ s ∈ scores,
        (if s < kthHighest scores scores.length then (⊥ : WithBot ℚ) else s) = s := by
      intro s hs
      rw [if_neg (hnone s hs)]
    rw [List.map_congr_left hfun]
    simp
  · intro i hi
    rw [get_top_k_logits_eq scores 1 h]
    have hkc : (min (max (1 : ℤ) 1) (scores.length : ℤ)).toNat = 1 := by omega
    rw [hkc, kthHighest_one scores h]
    have hmi : i < (scores.map (fun s =>
        if s < listMax scores then (⊥ : WithBot ℚ) else s)).length := by
      simpa using hi
    rw [getD_eq_getElem_of_lt _ _ _ hmi, getD_eq_getElem_of_lt _ _ _ hi,
      List.getElem_map]
    have hle : scores[i] ≤ listMax scores :=
      le_listMax _ _ (List.getElem_mem hi)
    by_cases heq : scores[i] = listMax scores
    · rw [if_pos heq, if_neg (by rw [heq]; exact lt_irrefl _)]
    · rw [if_neg heq, if_pos (lt_of_le_of_ne hle heq)]

theorem c7_witness :
    get_top_k_logits [5, 3, 7] 3 = [5, 3, 7] ∧
    ∀ i < ([5, 3, 7] : List (WithBot ℚ)).length,
      (get_top_k_logits [5, 3, 7] 1).getD i ⊥ =
        if ([5, 3, 7] : List (WithBot ℚ)).getD i ⊥ = listMax [5, 3, 7]
        then ([5, 3, 7] : List (WithBot ℚ)).getD i ⊥ else ⊥ :=
  c7_top_k_edge_cases [5, 3, 7] 3 (by decide) (by decide)

theorem expShift_nonneg (m s : WithBot ℚ) : 0 ≤ expShift m s := by
  unfold expShift
  split
  · exact le_refl 0
  · split
    · exact le_refl 0
    · exact (Real.exp_pos _).le

theorem expShift_pos (m s : WithBot ℚ) (hm : m ≠ ⊥) (hs : s ≠ ⊥) :
    0 < expShift m s := by
  unfold expShift
  rw [if_neg hs, if_neg hm]
  exact Real.exp_pos _

theorem expShift_bot (m : WithBot ℚ) : expShift m ⊥ = 0 := by
  unfold expShift
  rw [if_pos rfl]

theorem expShift_self (m : WithBot ℚ) (hm : m ≠ ⊥) : expShift m m = 1 := by
  unfold expShift
  rw [if_neg hm, if_neg hm, sub_self, Real.exp_zero]

theorem listMax_ne_bot (x : List (WithBot ℚ)) (s : WithBot ℚ) (hs : s ∈ x)
    (hsb : s ≠ ⊥) : listMax x ≠ ⊥ := by
  intro hb
  have hle := le_listMax x s hs
  rw [hb] at hle
  exact hsb (le_bot_iff.mp hle)

theorem softmax_sum_pos (x : List (WithBot ℚ)) (hne : ∃ s ∈ x, s ≠ ⊥) :
    0 < (x.map (expShift (listMax x))).sum := by
  obtain ⟨s0, hs0, hs0b⟩ := hne
  have hxne : x ≠ [] := by
    intro h
    rw [h] at hs0
    simp at hs0
  have hmb : listMax x ≠ ⊥ := listMax_ne_bot x s0 hs0 hs0b
  have hmem : (1 : ℝ) ∈ x.map (expShift (listMax x)) := by
    rw [← expShift_self (listMax x) hmb]
    exact List.mem_map_of_mem _ (listMax_mem x hxne)
  have hnn : ∀ y ∈ x.map (expShift (listMax x)), 0 ≤ y := by
    intro y hy
    obtain ⟨s, _, rfl⟩ := List.mem_map.mp hy
    exact expShift_nonneg _ _
  exact lt_of_lt_of_le one_pos (List.single_le_sum hnn 1 hmem)

theorem sum_map_div (l : List ℝ) (s : ℝ) :
    (l.map (fun v => v / s)).sum = l.sum / s := by
  simp only [div_eq_mul_inv]
  rw [List.sum_map_mul_right]
  simp

theorem softmax_sum_eq_one (x : List (WithBot ℚ)) (hne : ∃ s ∈ x, s ≠ ⊥) :
    (softmax x).sum = 1 := by
  have hpos := softmax_sum_pos x hne
  unfold softmax
  rw [sum_map_div]
  exact div_self (ne_of_gt hpos)

theorem softmax_getD (x : List (WithBot ℚ)) (i : ℕ) (hi : i < x.length) :
    (softmax x).getD i 0 =
      expShift (listMax x) (x.getD i ⊥) / (x.map (expShift (listMax x))).sum := by
  unfold softmax
  have h1 : i < ((x.map (expShift (listMax x))).map
      (fun v => v / (x.map (expShift (listMax x))).sum)).length := by
    simpa using hi
  rw [getD_eq_getElem_of_lt _ _ _ h1, getD_eq_getElem_of_lt _ _ _ hi]
  simp [List.getElem_map]

/-- C8: softmax is a probability vector: on a row with at least one finite
entry, if all entries are finite every output entry is nonnegative and the
outputs sum to 1 (a fortiori within 1e-6 of 1); and an output entry is
exactly 0 precisely at the indices whose input score is `-inf`. -/
theorem c8_softmax (x : List (WithBot ℚ)) (hne : ∃ s ∈ x, s ≠ ⊥) :
    ((∀ s ∈ x, s ≠ ⊥) →
      (∀ v ∈ softmax x, 0 ≤ v) ∧ |(softmax x).sum - 1| ≤ 1 / 1000000) ∧
    ∀ i < x.length, ((softmax x).getD i 0 = 0 ↔ x.getD i ⊥ = ⊥) := by
  have hpos := softmax_sum_pos x hne
  have hmb : listMax x ≠ ⊥ := by
    obtain ⟨s0, hs0, hs0b⟩ := hne
    exact listMax_ne_bot x s0 hs0 hs0b
  constructor
  · intro _
    constructor
    · intro v hv
      unfold softmax at hv
      obtain ⟨w, hw, rfl⟩ := List.mem_map.mp hv
      exact div_nonneg (by
        obtain ⟨s, _, rfl⟩ := List.mem_map.mp hw
        exact expShift_nonneg _ _) hpos.le
    · rw [softmax_sum_eq_one x hne]
      norm_num
  · intro i hi
    rw [softmax_getD x i hi]
    constructor
    · intro h0
      rcases div_eq_zero_iff.mp h0 with h1 | h1
      · by_contra hbot
        exact absurd h1 (ne_of_gt (expShift_pos _ _ hmb hbot))
      · exact absurd h1 (ne_of_gt hpos)
    · intro hb
      rw [hb, expShift_bot, zero_div]

theorem c8_witness :
    ((∀ s ∈ ([⊥, ((2 : ℚ) : WithBot ℚ)] : List (WithBot ℚ)), s ≠ ⊥) →
      (∀ v ∈ softmax [⊥, ((2 : ℚ) : WithBot ℚ)], 0 ≤ v) ∧
      |(softmax [⊥, ((2 : ℚ) : WithBot ℚ)]).sum - 1| ≤ 1 / 1000000) ∧
    ∀ i < ([⊥, ((2 : ℚ) : WithBot ℚ)] : List (WithBot ℚ)).length,
      ((softmax [⊥, ((2 : ℚ) : WithBot ℚ)]).getD i 0 = 0 ↔
        ([⊥, ((2 : ℚ) : WithBot ℚ)] : List (WithBot ℚ)).getD i ⊥ = ⊥) :=
  c8_softmax [⊥, ((2 : ℚ) : WithBot ℚ)] (by decide)

theorem prefix_append_iff_left {α : Type} (u X R : List α)
    (h : u.length ≤ X.length) : u <+: X ++ R ↔ u <+: X := by
  constructor
  · intro hp
    have ht := List.prefix_iff_eq_take.mp hp
    rw [List.take_append_of_le_length h] at ht
    exact List.prefix_iff_eq_take.mpr ht
  · intro hp
    exact hp.trans (List.prefix_append X R)

theorem splitGoF_fuelIrrel {α : Type} [DecidableEq α] (a : α) (s : List α) :
    ∀ f1 f2 l, l.length ≤ f1 → l.length ≤ f2 →
      splitGoF a s f1 l = splitGoF a s f2 l := by
  intro f1
  induction f1 with
  | zero =>
    intro f2 l h1 _
    have hl : l = [] := List.eq_nil_of_length_eq_zero (Nat.le_zero.mp h1)
    subst hl
    simp [splitGoF]
  | succ n ih =>
    intro f2 l h1 h2
    cases l with
    | nil => simp [splitGoF]
    | cons x xs =>
      cases f2 with
      | zero => simp at h2
      | succ m =>
        simp only [splitGoF]
        by_cases hp : (a :: s).isPrefixOf (x :: xs) = true
        · rw [if_pos hp, if_pos hp]
          have hd1 : (xs.drop s.length).length ≤ n := by
            simp only [List.length_drop]
            simp only [List.length_cons] at h1
            omega
          have hd2 : (xs.drop s.length).length ≤ m := by
            simp only [List.length_drop]
            simp only [List.length_cons] at h2
            omega
          rw [ih m (xs.drop s.length) hd1 hd2]
        · rw [if_neg hp, if_neg hp]
          have hx1 : xs.length ≤ n := by
            simp only [List.length_cons] at h1
            omega
          have hx2 : xs.length ≤ m := by
            simp only [List.length_cons] at h2
            omega
          rw [ih m xs hx1 hx2]

theorem splitGoF_ne_nil {α : Type} [DecidableEq α] (a : α) (s : List α)
    (fuel : ℕ) (l : List α) : splitGoF a s fuel l ≠ [] := by
  cases fuel with
  | zero => cases l <;> simp [splitGoF]
  | succ n =>
    cases l with
    | nil => simp [splitGoF]
    | cons x xs =>
      simp only [splitGoF]
      by_cases hp : (a :: s).isPrefixOf (x :: xs) = true
      · rw [if_pos hp]
        simp
      · rw [if_neg hp]
        rcases hres : splitGoF a s n xs with _ | ⟨u, us⟩ <;> simp

theorem splitGoF_consume {α : Type} [DecidableEq α] (a : α) (s : List α) :
    ∀ (seg R : List α) (fuel : ℕ),
      (seg ++ (a :: s) ++ R).length ≤ fuel →
      (∀ p < seg.length, ¬ ((a :: s).isPrefixOf ((seg ++ (a :: s)).drop p) = true)) →
      splitGoF a s fuel (seg ++ (a :: s) ++ R) =
        seg :: splitGoF a s R.length R := by
  intro seg
  induction seg with
  | nil =>
    intro R fuel hf _
    simp only [List.nil_append] at hf ⊢
    cases fuel with
    | zero =>
      simp only [List.length_append, List.length_cons] at hf
      omega
    | succ n =>
      have hx : (a :: s) ++ R = a :: (s ++ R) := rfl
      rw [hx]
      simp only [splitGoF]
      rw [if_pos (List.isPrefixOf_iff_prefix.mpr
        (by rw [← hx]; exact List.prefix_append _ _))]
      congr 1
      rw [List.drop_left]
      apply splitGoF_fuelIrrel
      · simp only [List.length_append, List.length_cons] at hf
        omega
      · exact le_refl _
  | cons y seg' ih =>
    intro R fuel hf hnem
    have hx : ((y :: seg') ++ (a :: s) ++ R) = y :: (seg' ++ (a :: s) ++ R) := rfl
    cases fuel with
    | zero =>
      rw [hx] at hf
      simp only [List.length_cons] at hf
      omega
    | succ n =>
      rw [hx]
      simp only [splitGoF]
      rw [if_neg ?hc]
      case hc =>
        intro hp
        rw [List.isPrefixOf_iff_prefix] at hp
        have hre : y :: (seg' ++ (a :: s) ++ R) = ((y :: seg') ++ (a :: s)) ++ R := by
          simp
        rw [hre] at hp
        have hpl : (a :: s) <+: (y :: seg') ++ (a :: s) :=
          (prefix_append_iff_left _ _ _ (by simp; omega)).mp hp
        exact hnem 0 (by simp)
          (by rw [List.drop_zero]; exact List.isPrefixOf_iff_prefix.mpr hpl)
      have hih := ih R n ?hflen ?hshift
      case hflen =>
        rw [hx] at hf
        simp only [List.length_cons] at hf
        omega
      case hshift =>
        intro p hp
        have h2 := hnem (p + 1) (by simpa using Nat.succ_lt_succ hp)
        simpa using h2
      rw [hih]

theorem pySplit_flush {α : Type} [DecidableEq α] (a : α) (s : List α) :
    ∀ (segs : List (List α)) (R : List α),
      (∀ seg ∈ segs, NoEarlyMatch (a :: s) seg) →
      pySplit (a :: s) ((segs.map (fun seg => seg ++ (a :: s))).flatten ++ R) =
        segs ++ pySplit (a :: s) R := by
  intro segs
  induction segs with
  | nil =>
    intro R _
    simp
  | cons seg segs' ih =>
    intro R hall
    have hih := ih R (fun sg hsg => hall sg (List.mem_cons_of_mem _ hsg))
    simp only [pySplit] at hih ⊢
    have hre : (((seg :: segs').map (fun sg => sg ++ (a :: s))).flatten ++ R)
        = seg ++ (a :: s) ++ ((segs'.map (fun sg => sg ++ (a :: s))).flatten ++ R) := by
      simp [List.append_assoc]
    rw [hre]
    rw [splitGoF_consume a s seg _ _ (le_refl _)
      (hall seg (List.mem_cons_self _ _))]
    rw [hih]
    simp

/-- C4: in a completed conversation turn the response is the segment at
Python index `-2` of the full decoded token history split on the decoded eos
string; whenever the decoded history is a well-formed sequence of
eos-terminated turns and the decoded generated text does not contain (even
partially overlapping its closing delimiter) the eos string, that segment is
exactly the newly generated turn's text. -/
theorem c4_response_extraction (encode : List Char → List ℕ)
    (decode : ℕ → List Char) (model : List ℕ → List ℕ → List (List ℚ))
    (choice : ℕ → List ℝ → ℕ) (fuel t : ℕ) (input : List Char)
    (history : List ℕ) (eos_token : List Char) (eos_token_id : ℕ)
    (r : List Char) (h2 app : List ℕ)
    (hsep : eos_token ≠ [])
    (hdec : decode eos_token_id = eos_token)
    (hc : converse encode decode model choice fuel t input history eos_token
      eos_token_id = some (r, h2))
    (happ : h2 = botIds encode input history eos_token ++ app ++ [eos_token_id])
    (hflush : FlushParts eos_token
      (((botIds encode input history eos_token).map decode).flatten))
    (hG : NoEarlyMatch eos_token ((app.map decode).flatten)) :
    r = (app.map decode).flatten := by
  rcases heos : eos_token with _ | ⟨a, s⟩
  · exact absurd heos hsep
  subst heos
  unfold converse at hc
  rcases hg : generate_sequence model choice fuel t
      (botIds encode input history (a :: s))
      (List.replicate (botIds encode input history (a :: s)).length 1)
      1000 eos_token_id true with _ | out
  · rw [hg] at hc
    simp at hc
  · rw [hg] at hc
    have hpair := Option.some.inj hc
    have hr : r = pyGet (pySplit (a :: s)
        (((out ++ [eos_token_id]).map decode).flatten)) (-2) [] :=
      (congrArg Prod.fst hpair).symm
    have hh2 : out ++ [eos_token_id] = h2 := congrArg Prod.snd hpair
    rw [happ] at hh2
    have hout : out = botIds encode input history (a :: s) ++ app :=
      List.append_cancel_right hh2
    obtain ⟨segs, hP, hsegs⟩ := hflush
    have htext : ((out ++ [eos_token_id]).map decode).flatten
        = ((segs ++ [(app.map decode).flatten]).map
            (fun sg => sg ++ (a :: s))).flatten ++ ([] : List Char) := by
      rw [hout]
      simp only [List.map_append, List.flatten_append, List.map_cons,
        List.map_nil, List.flatten_cons, List.flatten_nil, List.append_nil,
        hdec]
      rw [hP]
      simp [List.append_assoc]
    rw [hr, htext, pySplit_flush a s (segs ++ [(app.map decode).flatten]) []
      ?hall]
    case hall =>
      intro sg hsg
      rcases List.mem_append.mp hsg with h1 | h1
      · exact hsegs sg h1
      · rw [List.mem_singleton.mp h1]
        exact hG
    have hsplitnil : pySplit (a :: s) ([] : List Char) = [[]] := rfl
    rw [hsplitnil]
    unfold pyGet
    rw [if_pos (by norm_num)]
    have hidx : (((segs ++ [(app.map decode).flatten]) ++ [[]]).length
        - (-(-2 : ℤ)).toNat) = segs.length := by
      simp
    rw [hidx]
    rw [List.getD_eq_getElem?_getD]
    have hq : (segs ++ [(app.map decode).flatten] ++ [[]])[segs.length]?
        = some ((app.map decode).flatten) := by
      rw [List.append_assoc, List.getElem?_append_right (le_refl _)]
      simp
    rw [hq]
    rfl

theorem c4_witness :
    (['a'] : List Char) = (([7] : List ℕ).map stubDecode).flatten :=
  c4_response_extraction stubEncode stubDecode stubModel (stubChoiceSeq 7 0)
    2 0 ['h'] [] ['E'] 0 ['a'] [1, 0, 7, 0] [7] (by decide) rfl (by decide)
    (by decide) ⟨[['a']], by decide, by decide⟩ (by decide)

end TextPrediction
